import Mathlib

/-!
Verification development for the mention resolver of the `atome` writing
application (`src/app/book/[bookId]/page.tsx`).

The resolver lives inside `createRemarkMentionPlugin`: a remark transformer
that scans a markdown text node for occurrences of character/note names and
splices mention link nodes into the parent's children.  The definitions below
are a shallow embedding of that TypeScript code: strings are `List Char`,
the `while` loops become fuel-indexed recursion returning `Option` (with
`none` modelling a loop that never terminates — the JavaScript has no fuel,
so `none` is only reached when the source loop would spin forever), and the
quirky JavaScript string semantics (out-of-range indexing yielding
`undefined`, which `RegExp.test` coerces to the string `"undefined"`) are
modelled explicitly.

A central fact about the source: all four word-boundary tests are written
with the regex literal `/\\w/`, whose pattern is an escaped backslash
followed by `w`.  It matches a literal backslash-then-`w` two-character
sequence, never a word character, so on the one-character strings it is
applied to it is always `false` and the boundary checks are vacuous.
-/

namespace Atome

/-- Tag `'character' | 'note'` carried by a mentionable item. -/
inductive ItemKind
  | character
  | note
deriving DecidableEq

/-- One entry of `itemsToMention` / `mentionableItems`:
`{ id: string; name: string; type: 'character' | 'note' }`. -/
structure MentionItem where
  id : String
  name : List Char
  type : ItemKind
deriving DecidableEq

/-- The string `'character'` or `'note'` used when building urls/titles. -/
def kindToString : ItemKind → String
  | .character => "character"
  | .note => "note"

/-- Markdown AST nodes produced by the transformer: plain `text` nodes and
mention `link` nodes (url, single text child, data fields, title). -/
inductive MdNode
  | text (value : List Char)
  | link (url : String) (childValue : List Char) (itemType : ItemKind)
      (itemId : String) (itemName : List Char) (title : String)
deriving DecidableEq

/-- The url `mention://${type}/${id}` of a mention link node. -/
def mentionUrl (item : MentionItem) : String :=
  "mention://" ++ kindToString item.type ++ "/" ++ item.id

/-- The title `View ${type}: ${name}` of a mention link node. -/
def mentionTitle (item : MentionItem) : String :=
  "View " ++ kindToString item.type ++ ": " ++ String.mk item.name

/-- The mention link node pushed for a matched item (source lines 155-161):
url, a single text child holding the display name, the `data` payload and
the tooltip title. -/
def mkMentionLink (item : MentionItem) : MdNode :=
  .link (mentionUrl item) item.name item.type item.id item.name (mentionTitle item)

/-- Whether a node is a mention link node. -/
def MdNode.isLink : MdNode → Bool
  | .link .. => true
  | .text _ => false

/-- Whether a string contains the two-character sequence backslash-`w`.
This is exactly what the source's regex literal `/\\w/` tests: the doubled
backslash escapes, so the pattern is a literal `\` followed by `w` — not the
word-character class `\w` the comments intend. -/
def containsBackslashW : List Char → Bool
  | a :: b :: rest => (a == '\\' && b == 'w') || containsBackslashW (b :: rest)
  | _ => false

/-- JavaScript string indexing `s[i]` as seen by `RegExp.test`: in range it
is the one-character string, out of range the indexing yields `undefined`,
which `test` coerces to the string `"undefined"`. -/
def jsCharAt (s : List Char) (i : Nat) : List Char :=
  match s[i]? with
  | some c => [c]
  | none => "undefined".toList

/-- A match record `{ item, startIndex, length }` of the revised loop. -/
structure ScanMatch where
  item : MentionItem
  startIndex : Nat
  length : Nat
deriving DecidableEq

/-- Body of the `for(const item of sortedItems)` of the revised loop
(source lines 126-148): the item matches when its name occurs at position
`currentTextIndex` (`textSegment.indexOf(item.name) === 0`) and the two
boundary tests — written with the broken regex `/\\w/` — pass. -/
def tryMatch (text : List Char) (currentTextIndex : Nat) (item : MentionItem) :
    Option ScanMatch :=
  if item.name.isPrefixOf (text.drop currentTextIndex) then
    let startIndex := currentTextIndex
    let endIndex := startIndex + item.name.length
    let charBefore := if startIndex > 0 then jsCharAt text (startIndex - 1) else [' ']
    let charAfter := if endIndex < text.length then jsCharAt text endIndex else [' ']
    let startOk := !containsBackslashW charBefore || !containsBackslashW (jsCharAt item.name 0)
    let endOk := !containsBackslashW charAfter ||
      !containsBackslashW (jsCharAt item.name (item.name.length - 1))
    if startOk && endOk then some ⟨item, startIndex, item.name.length⟩ else none
  else none

/-- Index of the first occurrence of `pat` in the list, if any. -/
def firstPrefixIdx (pat : List Char) : List Char → Option Nat
  | [] => if pat.isEmpty then some 0 else none
  | c :: rest =>
    if pat.isPrefixOf (c :: rest) then some 0
    else (firstPrefixIdx pat rest).map (· + 1)

/-- JavaScript `text.indexOf(pat, pos)` (with `none` for `-1`): the start
position is clamped to the string length, then the first occurrence at or
after it is returned. -/
def jsIndexOfFrom (text pat : List Char) (pos : Nat) : Option Nat :=
  (firstPrefixIdx pat (text.drop (min pos text.length))).map (· + min pos text.length)

/-- `nextPotentialMatchStart` of the revised loop's no-match branch (source
lines 166-174): the smallest next occurrence, strictly after the current
position, of any candidate name, defaulting to the end of the text. -/
def nextPotentialMatchStart (sortedItems : List MentionItem) (text : List Char)
    (currentTextIndex : Nat) : Nat :=
  sortedItems.foldl (fun nextPMS item =>
    match jsIndexOfFrom text item.name (currentTextIndex + 1) with
    | some nextOcc => if nextOcc < nextPMS then nextOcc else nextPMS
    | none => nextPMS) text.length

/-- The revised scanning loop (source lines 121-182), fuel-indexed.  Each
iteration either emits the mention link of the first matching candidate and
advances past it, or emits the plain segment up to the next potential match
start.  `none` models fuel exhaustion, which only happens when the source
loop fails to advance (a zero-length match from an empty candidate name). -/
def scanLoop (sortedItems : List MentionItem) (text : List Char) :
    Nat → Nat → Option (List MdNode)
  | 0, _ => none
  | fuel + 1, currentTextIndex =>
    if currentTextIndex < text.length then
      match sortedItems.findSome? (tryMatch text currentTextIndex) with
      | some bestMatch =>
        (scanLoop sortedItems text fuel (currentTextIndex + bestMatch.length)).map
          (fun rest => mkMentionLink bestMatch.item :: rest)
      | none =>
        let nPMS := nextPotentialMatchStart sortedItems text currentTextIndex
        let plainTextSegment := (text.drop currentTextIndex).take (nPMS - currentTextIndex)
        (scanLoop sortedItems text fuel nPMS).map
          (fun rest =>
            if plainTextSegment.isEmpty then rest else MdNode.text plainTextSegment :: rest)
    else some []

/-- One iteration of the revised loop's body: the nodes it emits and the new
cursor.  A total function: every branch of the source body produces a defined
result (JavaScript's out-of-range indexing falls back to `undefined`, which
the boundary test coerces, see `jsCharAt`). -/
def scanStep (sortedItems : List MentionItem) (text : List Char)
    (currentTextIndex : Nat) : List MdNode × Nat :=
  match sortedItems.findSome? (tryMatch text currentTextIndex) with
  | some bestMatch => ([mkMentionLink bestMatch.item], currentTextIndex + bestMatch.length)
  | none =>
    let nPMS := nextPotentialMatchStart sortedItems text currentTextIndex
    let plainTextSegment := (text.drop currentTextIndex).take (nPMS - currentTextIndex)
    (if plainTextSegment.isEmpty then [] else [MdNode.text plainTextSegment], nPMS)

/-- The whole revised scan of one text node, starting at index 0.  The fuel
`text.length + 1` is enough for any terminating run of the source loop since
the cursor strictly increases on every iteration that does not select a
zero-length (empty-name) match. -/
def resolveText (sortedItems : List MentionItem) (text : List Char) :
    Option (List MdNode) :=
  scanLoop sortedItems text (text.length + 1) 0

/-- The `text` carried by a span: a plain node's value, a mention link
node's display-name text (its single text child). -/
def spanText : MdNode → List Char
  | .text v => v
  | .link _ childValue _ _ _ _ => childValue

/-- Concatenation of the texts of a span sequence, in order. -/
def spansText : List MdNode → List Char
  | [] => []
  | n :: ns => spanText n ++ spansText ns

/-! ### Basic facts about the broken boundary test -/

theorem containsBackslashW_singleton (c : Char) : containsBackslashW [c] = false := rfl

theorem containsBackslashW_jsCharAt (s : List Char) (i : Nat) :
    containsBackslashW (jsCharAt s i) = false := by
  unfold jsCharAt
  cases s[i]? with
  | some c => exact containsBackslashW_singleton c
  | none => decide

/-- The boundary checks of the revised loop are vacuous: `tryMatch` succeeds
exactly when the candidate's name occurs at the current position, and then
returns the match record at that position with the name's length. -/
theorem tryMatch_eq (text : List Char) (cti : Nat) (item : MentionItem) :
    tryMatch text cti item =
      if item.name.isPrefixOf (text.drop cti) then
        some ⟨item, cti, item.name.length⟩
      else none := by
  unfold tryMatch
  split
  · have h1 : containsBackslashW
        (if cti > 0 then jsCharAt text (cti - 1) else [' ']) = false := by
      split
      · exact containsBackslashW_jsCharAt _ _
      · rfl
    have h2 : containsBackslashW
        (if cti + item.name.length < text.length then
          jsCharAt text (cti + item.name.length) else [' ']) = false := by
      split
      · exact containsBackslashW_jsCharAt _ _
      · rfl
    simp [h1, h2, containsBackslashW_jsCharAt]
  · rfl

theorem tryMatch_some {text : List Char} {cti : Nat} {item : MentionItem} {m : ScanMatch}
    (h : tryMatch text cti item = some m) :
    m = ⟨item, cti, item.name.length⟩ ∧ item.name.isPrefixOf (text.drop cti) = true := by
  rw [tryMatch_eq] at h
  split at h
  · exact ⟨(Option.some.injEq _ _ ▸ h).symm ▸ rfl, by assumption⟩
  · exact absurd h (by simp)

/-! ### `indexOf` and `nextPotentialMatchStart` -/

theorem firstPrefixIdx_spec {pat l : List Char} {k : Nat}
    (h : firstPrefixIdx pat l = some k) :
    pat.isPrefixOf (l.drop k) = true ∧ k ≤ l.length := by
  induction l generalizing k with
  | nil =>
    unfold firstPrefixIdx at h
    split at h
    · cases h
      refine ⟨?_, Nat.le_refl _⟩
      have : pat = [] := by simpa [List.isEmpty_iff] using ‹pat.isEmpty = true›
      simp [this, List.isPrefixOf]
    · cases h
  | cons c rest ih =>
    unfold firstPrefixIdx at h
    split at h
    · cases h
      simpa using ‹pat.isPrefixOf (c :: rest) = true›
    · cases hr : firstPrefixIdx pat rest with
      | none => rw [hr] at h; cases h
      | some j =>
        rw [hr] at h
        simp only [Option.map_some'] at h
        cases h
        obtain ⟨h1, h2⟩ := ih hr
        exact ⟨by simpa using h1, by simpa using Nat.succ_le_succ h2⟩

theorem jsIndexOfFrom_spec {text pat : List Char} {pos j : Nat}
    (h : jsIndexOfFrom text pat pos = some j) :
    pat.isPrefixOf (text.drop j) = true ∧ min pos text.length ≤ j ∧ j ≤ text.length := by
  unfold jsIndexOfFrom at h
  cases hfp : firstPrefixIdx pat (text.drop (min pos text.length)) with
  | none => rw [hfp] at h; cases h
  | some k =>
    rw [hfp] at h
    simp only [Option.map_some'] at h
    obtain ⟨h1, h2⟩ := firstPrefixIdx_spec hfp
    rw [List.drop_drop] at h1
    cases h
    refine ⟨by simpa [Nat.add_comm] using h1, Nat.le_add_left _ _, ?_⟩
    have := List.length_drop (min pos text.length) text
    omega

/-- Lower and upper bounds on the fold computing `nextPotentialMatchStart`. -/
theorem nextPMS_bounds (sortedItems : List MentionItem) (text : List Char)
    (cti : Nat) (h : cti < text.length) :
    cti + 1 ≤ nextPotentialMatchStart sortedItems text cti ∧
      nextPotentialMatchStart sortedItems text cti ≤ text.length := by
  unfold nextPotentialMatchStart
  have hmin : min (cti + 1) text.length = cti + 1 := by omega
  suffices H : ∀ (l : List MentionItem) (acc : Nat), cti + 1 ≤ acc → acc ≤ text.length →
      cti + 1 ≤ l.foldl (fun nextPMS item =>
        match jsIndexOfFrom text item.name (cti + 1) with
        | some nextOcc => if nextOcc < nextPMS then nextOcc else nextPMS
        | none => nextPMS) acc ∧
      l.foldl (fun nextPMS item =>
        match jsIndexOfFrom text item.name (cti + 1) with
        | some nextOcc => if nextOcc < nextPMS then nextOcc else nextPMS
        | none => nextPMS) acc ≤ text.length by
    exact H sortedItems text.length (by omega) (Nat.le_refl _)
  intro l
  induction l with
  | nil => intro acc h1 h2; exact ⟨h1, h2⟩
  | cons x xs ih =>
    intro acc h1 h2
    simp only [List.foldl_cons]
    apply ih
    · cases hx : jsIndexOfFrom text x.name (cti + 1) with
      | none => simpa [hx] using h1
      | some occ =>
        obtain ⟨_, hlo, _⟩ := jsIndexOfFrom_spec hx
        rw [hmin] at hlo
        simp only [hx]
        split <;> omega
    · cases hx : jsIndexOfFrom text x.name (cti + 1) with
      | none => simpa [hx] using h2
      | some occ =>
        obtain ⟨_, _, hhi⟩ := jsIndexOfFrom_spec hx
        simp only [hx]
        split <;> omega

/-- When the fold lands strictly below the end of the text, its value is an
actual occurrence of some candidate's name. -/
theorem nextPMS_lt_exists (sortedItems : List MentionItem) (text : List Char)
    (cti : Nat) (hlt : nextPotentialMatchStart sortedItems text cti < text.length) :
    ∃ item ∈ sortedItems,
      jsIndexOfFrom text item.name (cti + 1) =
        some (nextPotentialMatchStart sortedItems text cti) := by
  unfold nextPotentialMatchStart at *
  suffices H : ∀ (l : List MentionItem) (acc : Nat),
      (l.foldl (fun nextPMS item =>
        match jsIndexOfFrom text item.name (cti + 1) with
        | some nextOcc => if nextOcc < nextPMS then nextOcc else nextPMS
        | none => nextPMS) acc = acc) ∨
      ∃ item ∈ l, jsIndexOfFrom text item.name (cti + 1) =
        some (l.foldl (fun nextPMS item =>
          match jsIndexOfFrom text item.name (cti + 1) with
          | some nextOcc => if nextOcc < nextPMS then nextOcc else nextPMS
          | none => nextPMS) acc) by
    rcases H sortedItems text.length with h | h
    · omega
    · exact h
  intro l
  induction l with
  | nil => intro acc; exact Or.inl rfl
  | cons x xs ih =>
    intro acc
    simp only [List.foldl_cons]
    cases hx : jsIndexOfFrom text x.name (cti + 1) with
    | none =>
      simp only [hx]
      rcases ih acc with h | ⟨item, hmem, heq⟩
      · exact Or.inl h
      · exact Or.inr ⟨item, List.mem_cons_of_mem _ hmem, heq⟩
    | some occ =>
      simp only [hx]
      rcases ih (if occ < acc then occ else acc) with h | ⟨item, hmem, heq⟩
      · rw [h]
        by_cases hocc : occ < acc
        · exact Or.inr ⟨x, List.mem_cons_self _ _, by rw [if_pos hocc, hx]⟩
        · exact Or.inl (if_neg hocc)
      · exact Or.inr ⟨item, List.mem_cons_of_mem _ hmem, heq⟩

/-! ### Generic `findSome?` facts -/

theorem findSome?_mem_isSome {α β : Type} {f : α → Option β} {l : List α} {x : α} {b : β}
    (hx : x ∈ l) (hfx : f x = some b) : ∃ m, l.findSome? f = some m := by
  induction l with
  | nil => cases hx
  | cons y ys ih =>
    cases hy : f y with
    | some m => exact ⟨m, by simp [List.findSome?_cons, hy]⟩
    | none =>
      rcases List.mem_cons.mp hx with rfl | hx'
      · rw [hy] at hfx; cases hfx
      · obtain ⟨m, hm⟩ := ih hx'
        exact ⟨m, by simp [List.findSome?_cons, hy, hm]⟩

theorem findSome?_append_first {α β : Type} {f : α → Option β} {x : α} {m : β}
    (pre post : List α) (hpre : ∀ y ∈ pre, f y = none) (hx : f x = some m) :
    (pre ++ x :: post).findSome? f = some m := by
  induction pre with
  | nil => simp [List.findSome?_cons, hx]
  | cons y ys ih =>
    have hy : f y = none := hpre y (List.mem_cons_self _ _)
    have := ih (fun z hz => hpre z (List.mem_cons_of_mem _ hz))
    simpa [List.findSome?_cons, hy] using this

/-! ### Reconstruction of the scanned text -/

theorem mkMentionLink_isLink (item : MentionItem) :
    (mkMentionLink item).isLink = true := rfl

theorem scanLoop_spansText (sortedItems : List MentionItem) (text : List Char) :
    ∀ fuel cti spans, scanLoop sortedItems text fuel cti = some spans →
      spansText spans = text.drop cti := by
  intro fuel
  induction fuel with
  | zero => intro cti spans h; simp [scanLoop] at h
  | succ fuel ih =>
    intro cti spans h
    rw [scanLoop] at h
    by_cases hlt : cti < text.length
    · rw [if_pos hlt] at h
      cases hm : sortedItems.findSome? (tryMatch text cti) with
      | some m =>
        simp only [hm] at h
        cases hrec : scanLoop sortedItems text fuel (cti + m.length) with
        | none => rw [hrec] at h; simp at h
        | some rest =>
          rw [hrec] at h
          simp only [Option.map_some'] at h
          rcases (Option.some.inj h).symm with rfl
          obtain ⟨item, hitem, htm⟩ := List.exists_of_findSome?_eq_some hm
          obtain ⟨hm_eq, hpre⟩ := tryMatch_some htm
          obtain ⟨t, ht⟩ := List.isPrefixOf_iff_prefix.mp hpre
          have hrest := ih (cti + m.length) rest hrec
          have hdrop : text.drop (cti + m.length) = t := by
            rw [hm_eq]
            show text.drop (cti + item.name.length) = t
            rw [← List.drop_drop, ← ht, List.drop_left]
          show spanText (mkMentionLink m.item) ++ spansText rest = text.drop cti
          rw [hrest, hdrop, hm_eq]
          exact ht
      | none =>
        simp only [hm] at h
        cases hrec : scanLoop sortedItems text fuel
            (nextPotentialMatchStart sortedItems text cti) with
        | none => rw [hrec] at h; simp at h
        | some rest =>
          rw [hrec] at h
          simp only [Option.map_some'] at h
          rcases (Option.some.inj h).symm with rfl
          obtain ⟨hlo, hhi⟩ := nextPMS_bounds sortedItems text cti hlt
          have hrest := ih _ rest hrec
          have hdrop : text.drop (nextPotentialMatchStart sortedItems text cti) =
              (text.drop cti).drop (nextPotentialMatchStart sortedItems text cti - cti) := by
            rw [List.drop_drop]
            congr 1
            omega
          by_cases hseg :
              ((text.drop cti).take (nextPotentialMatchStart sortedItems text cti - cti)).isEmpty = true
          · exfalso
            have hnil : (text.drop cti).take
                (nextPotentialMatchStart sortedItems text cti - cti) = [] := by
              simpa [List.isEmpty_iff] using hseg
            rcases List.take_eq_nil_iff.mp hnil with h0 | hnil'
            · omega
            · have hlen := List.length_drop cti text
              rw [hnil'] at hlen
              simp at hlen
              omega
          · rw [if_neg hseg]
            show spanText (MdNode.text _) ++ spansText rest = text.drop cti
            rw [hrest, hdrop]
            exact List.take_append_drop _ _
    · rw [if_neg hlt] at h
      rcases (Option.some.inj h).symm with rfl
      show spansText [] = text.drop cti
      have : text.drop cti = [] := List.drop_eq_nil_of_le (by omega)
      simp [spansText, this]

/-! ### Termination of the revised loop -/

theorem scanStep_length_pos {sortedItems : List MentionItem} {text : List Char} {cti : Nat}
    {m : ScanMatch} (hname : ∀ i ∈ sortedItems, i.name ≠ [])
    (hm : sortedItems.findSome? (tryMatch text cti) = some m) : 0 < m.length := by
  obtain ⟨item, hitem, htm⟩ := List.exists_of_findSome?_eq_some hm
  obtain ⟨hm_eq, _⟩ := tryMatch_some htm
  rw [hm_eq]
  exact List.length_pos.mpr (hname item hitem)

theorem scanStep_cursor_lt (sortedItems : List MentionItem) (text : List Char) (cti : Nat)
    (hname : ∀ i ∈ sortedItems, i.name ≠ []) (hlt : cti < text.length) :
    cti < (scanStep sortedItems text cti).2 := by
  unfold scanStep
  cases hm : sortedItems.findSome? (tryMatch text cti) with
  | some m =>
    have := scanStep_length_pos hname hm
    simpa using by omega
  | none =>
    obtain ⟨hlo, _⟩ := nextPMS_bounds sortedItems text cti hlt
    simpa using by omega

theorem scanLoop_isSome (sortedItems : List MentionItem) (text : List Char)
    (hname : ∀ i ∈ sortedItems, i.name ≠ []) :
    ∀ fuel cti, text.length - cti < fuel →
      ∃ spans, scanLoop sortedItems text fuel cti = some spans := by
  intro fuel
  induction fuel with
  | zero => intro cti h; omega
  | succ fuel ih =>
    intro cti hfuel
    by_cases hlt : cti < text.length
    · cases hm : sortedItems.findSome? (tryMatch text cti) with
      | some m =>
        have hmlen := scanStep_length_pos hname hm
        obtain ⟨rest, hrest⟩ := ih (cti + m.length) (by omega)
        refine ⟨mkMentionLink m.item :: rest, ?_⟩
        rw [scanLoop, if_pos hlt]
        simp [hm, hrest]
      | none =>
        obtain ⟨hlo, hhi⟩ := nextPMS_bounds sortedItems text cti hlt
        obtain ⟨rest, hrest⟩ := ih (nextPotentialMatchStart sortedItems text cti) (by omega)
        refine ⟨if ((text.drop cti).take
            (nextPotentialMatchStart sortedItems text cti - cti)).isEmpty then rest
          else MdNode.text ((text.drop cti).take
            (nextPotentialMatchStart sortedItems text cti - cti)) :: rest, ?_⟩
        rw [scanLoop, if_pos hlt]
        simp [hm, hrest]
    · exact ⟨[], by rw [scanLoop, if_neg hlt]⟩

/-! ### Structure of a scan that found no mention -/

/-- At the next potential match start, when it lies strictly inside the
text, some candidate does match (the broken boundary checks reject
nothing). -/
theorem findSome?_at_nextPMS (sortedItems : List MentionItem) (text : List Char)
    (cti : Nat)
    (hlt : nextPotentialMatchStart sortedItems text cti < text.length) :
    ∃ m, sortedItems.findSome?
      (tryMatch text (nextPotentialMatchStart sortedItems text cti)) = some m := by
  obtain ⟨item, hitem, hocc⟩ := nextPMS_lt_exists sortedItems text cti hlt
  obtain ⟨hpre, _, _⟩ := jsIndexOfFrom_spec hocc
  refine findSome?_mem_isSome
    (b := ⟨item, nextPotentialMatchStart sortedItems text cti, item.name.length⟩) hitem ?_
  rw [tryMatch_eq, if_pos hpre]

/-- A scan that produced no mention link produced either nothing (cursor
already at the end) or a single plain node holding the rest of the text. -/
theorem scanLoop_all_plain {sortedItems : List MentionItem} {text : List Char}
    {fuel cti : Nat} {spans : List MdNode}
    (h : scanLoop sortedItems text fuel cti = some spans)
    (hnl : ∀ n ∈ spans, n.isLink = false) :
    spans = if cti < text.length then [MdNode.text (text.drop cti)] else [] := by
  cases fuel with
  | zero => simp [scanLoop] at h
  | succ fuel =>
    rw [scanLoop] at h
    by_cases hlt : cti < text.length
    · rw [if_pos hlt] at h
      cases hm : sortedItems.findSome? (tryMatch text cti) with
      | some m =>
        simp only [hm] at h
        cases hrec : scanLoop sortedItems text fuel (cti + m.length) with
        | none => rw [hrec] at h; simp at h
        | some rest =>
          rw [hrec] at h
          simp only [Option.map_some'] at h
          rcases (Option.some.inj h).symm with rfl
          have := hnl (mkMentionLink m.item) (List.mem_cons_self _ _)
          rw [mkMentionLink_isLink] at this
          cases this
      | none =>
        simp only [hm] at h
        obtain ⟨hlo, hhi⟩ := nextPMS_bounds sortedItems text cti hlt
        cases hrec : scanLoop sortedItems text fuel
            (nextPotentialMatchStart sortedItems text cti) with
        | none => rw [hrec] at h; simp at h
        | some rest =>
          rw [hrec] at h
          simp only [Option.map_some'] at h
          rcases (Option.some.inj h).symm with rfl
          -- the recursive call cannot itself start below the end of the text:
          -- there it would immediately emit a mention link
          by_cases hn : nextPotentialMatchStart sortedItems text cti < text.length
          · exfalso
            obtain ⟨m', hm'⟩ := findSome?_at_nextPMS sortedItems text cti hn
            cases fuel with
            | zero => simp [scanLoop] at hrec
            | succ fuel' =>
              rw [scanLoop, if_pos hn] at hrec
              simp only [hm'] at hrec
              cases hrec2 : scanLoop sortedItems text fuel'
                  (nextPotentialMatchStart sortedItems text cti + m'.length) with
              | none => rw [hrec2] at hrec; cases hrec
              | some rest' =>
                rw [hrec2] at hrec
                simp only [Option.map_some'] at hrec
                have hres : rest = mkMentionLink m'.item :: rest' :=
                  (Option.some.inj hrec).symm
                have hmem : mkMentionLink m'.item ∈
                    (if ((text.drop cti).take
                        (nextPotentialMatchStart sortedItems text cti - cti)).isEmpty then
                      rest else MdNode.text ((text.drop cti).take
                        (nextPotentialMatchStart sortedItems text cti - cti)) :: rest) := by
                  rw [hres]
                  split
                  · exact List.mem_cons_self _ _
                  · exact List.mem_cons_of_mem _ (List.mem_cons_self _ _)
                have := hnl _ hmem
                rw [mkMentionLink_isLink] at this
                cases this
          · have hend : nextPotentialMatchStart sortedItems text cti = text.length := by omega
            have hrest_nil : rest = [] := by
              cases fuel with
              | zero => simp [scanLoop] at hrec
              | succ fuel' =>
                rw [scanLoop, hend, if_neg (lt_irrefl text.length)] at hrec
                exact (Option.some.inj hrec).symm
            have hseg : (text.drop cti).take
                (nextPotentialMatchStart sortedItems text cti - cti) = text.drop cti := by
              apply List.take_of_length_le
              rw [List.length_drop]
              omega
            have hdropne : text.drop cti ≠ [] := by
              intro hnil
              have hlen := List.length_drop cti text
              rw [hnil] at hlen
              simp at hlen
              omega
            have hne : ((text.drop cti).take
                (nextPotentialMatchStart sortedItems text cti - cti)).isEmpty = false := by
              rw [hseg, Bool.eq_false_iff]
              intro hI
              exact hdropne (List.isEmpty_iff.mp hI)
            subst hrest_nil
            simp [hne, hseg, hlt]
    · rw [if_neg hlt] at h
      rcases (Option.some.inj h).symm with rfl
      rw [if_neg hlt]

/-! ### The abandoned first scanning loop (source lines 47-113)

The transformer first runs an earlier, abandoned implementation of the same
scan, accumulating `newChildren`; that accumulator is never read afterwards
(the splice uses only `revisedNewChildren`), but the loop still executes. -/

/-- The no-match branch of the first loop (source lines 104-109): append the
current character to a trailing text node, or push a fresh one. -/
def appendPlain (newChildren : List MdNode) (s : List Char) : List MdNode :=
  match newChildren.getLast? with
  | some (MdNode.text v) => newChildren.dropLast ++ [MdNode.text (v ++ s)]
  | _ => newChildren ++ [MdNode.text s]

/-- Body of the `for (const item of sortedItems)` of the first loop (source
lines 59-79): `text.substring(i).startsWith(item.name)` plus the same broken
`/\\w/` boundary tests (guarded by `i === 0` and `i + len === text.length`
instead of substituting a space). -/
def tryMatch1 (text : List Char) (currentSearchIndex : Nat) (item : MentionItem) :
    Option ScanMatch :=
  if item.name.isPrefixOf (text.drop currentSearchIndex) then
    let charBeforeIndex := currentSearchIndex - 1
    let charAfterIndex := currentSearchIndex + item.name.length
    let isStartBoundary := currentSearchIndex == 0 ||
      !containsBackslashW (jsCharAt text charBeforeIndex)
    let isEndBoundary := charAfterIndex == text.length ||
      !containsBackslashW (jsCharAt text charAfterIndex)
    if isStartBoundary && isEndBoundary then
      some ⟨item, currentSearchIndex, item.name.length⟩
    else none
  else none

/-- The first, abandoned loop (source lines 53-113), fuel-indexed like
`scanLoop`.  State: accumulated `newChildren`, `lastIndex`, and
`currentSearchIndex`. -/
def scanLoop1 (sortedItems : List MentionItem) (text : List Char) :
    Nat → List MdNode → Nat → Nat → Option (List MdNode)
  | 0, _, _, _ => none
  | fuel + 1, newChildren, lastIndex, currentSearchIndex =>
    if currentSearchIndex < text.length then
      match sortedItems.findSome? (tryMatch1 text currentSearchIndex) with
      | some m =>
        let withPre :=
          if m.startIndex > lastIndex then
            newChildren ++
              [MdNode.text ((text.drop lastIndex).take (m.startIndex - lastIndex))]
          else newChildren
        scanLoop1 sortedItems text fuel (withPre ++ [mkMentionLink m.item])
          (m.startIndex + m.length) (m.startIndex + m.length)
      | none =>
        scanLoop1 sortedItems text fuel
          (appendPlain newChildren (jsCharAt text currentSearchIndex))
          (currentSearchIndex + 1) (currentSearchIndex + 1)
    else some newChildren

/-! ### The transformer acting on one text node -/

/-- Whether the first span is a plain node whose value equals the whole
original text, i.e. `revisedNewChildren[0].type === 'text' &&
revisedNewChildren[0].value === text`. -/
def firstIsPlainEqual : List MdNode → List Char → Bool
  | MdNode.text v :: _, text => v == text
  | _, _ => false

/-- The splice guard of source line 185:
`revisedNewChildren.length > 0 && (length !== 1 || [0].type !== 'text' ||
[0].value !== text)`. -/
def shouldSplice (revisedNewChildren : List MdNode) (text : List Char) : Bool :=
  !revisedNewChildren.isEmpty &&
    !(revisedNewChildren.length == 1 && firstIsPlainEqual revisedNewChildren text)

/-- `parent.children.splice(index, 1, ...revisedNewChildren)`: remove the one
node at `index` and insert the replacement nodes there. -/
def spliceChildren (children : List MdNode) (index : Nat)
    (replacement : List MdNode) : List MdNode :=
  children.take index ++ replacement ++ children.drop (index + 1)

/-- The transformer's visit callback on the text node at `index` of a
parent's children (source lines 42-191), as written: it runs the abandoned
first loop (whose result is discarded), then the revised loop, and splices
the revised children into the parent unless nothing matched.  The visitor
guard `!parent || typeof node.value !== 'string' || !index === undefined`
never fires for a text node with a parent (`!index === undefined` compares a
boolean against `undefined`, which is always false); non-text nodes are
simply not visited, leaving the children unchanged. -/
def transformerTextNode (sortedItems : List MentionItem) (children : List MdNode)
    (index : Nat) : Option (List MdNode) :=
  match children[index]? with
  | some (MdNode.text text) =>
    match scanLoop1 sortedItems text (text.length + 1) [] 0 0 with
    | none => none
    | some _newChildren =>
      match scanLoop sortedItems text (text.length + 1) 0 with
      | none => none
      | some revisedNewChildren =>
        some (if shouldSplice revisedNewChildren text then
            spliceChildren children index revisedNewChildren
          else children)
  | _ => some children

/-- The same transformer with the abandoned first loop removed. -/
def transformerRevisedOnly (sortedItems : List MentionItem) (children : List MdNode)
    (index : Nat) : Option (List MdNode) :=
  match children[index]? with
  | some (MdNode.text text) =>
    match scanLoop sortedItems text (text.length + 1) 0 with
    | none => none
    | some revisedNewChildren =>
      some (if shouldSplice revisedNewChildren text then
          spliceChildren children index revisedNewChildren
        else children)
  | _ => some children

/-! ### Sorting and the candidate index builder -/

/-- Insert an element into an already length-descending list, after every
element of greater or equal name length: the stable insertion used to model
`Array.prototype.sort` (stable since ES2019) with comparator
`(a, b) => b.name.length - a.name.length`. -/
def insertByNameLenDesc : List MentionItem → MentionItem → List MentionItem
  | [], x => [x]
  | y :: ys, x =>
    if y.name.length < x.name.length then x :: y :: ys
    else y :: insertByNameLenDesc ys x

/-- Stable sort by name length, descending (ties keep input order). -/
def sortByNameLenDesc (items : List MentionItem) : List MentionItem :=
  items.foldl insertByNameLenDesc []

/-- `createRemarkMentionPlugin` (source lines 30-194) restricted to its
action on one text node of a parent: an empty candidate list returns the
no-op plugin (tree returned unchanged, no scanning at all); otherwise the
candidates are sorted longest-first and the transformer runs. -/
def createRemarkMentionPlugin (itemsToMention : List MentionItem) :
    List MdNode → Nat → Option (List MdNode) :=
  if itemsToMention.isEmpty then
    fun children _ => some children
  else
    transformerTextNode (sortByNameLenDesc itemsToMention)

/-- JavaScript whitespace as removed by `String.prototype.trim` (the ASCII
part; the names in this application are ordinary text). -/
def isJsSpace (c : Char) : Bool :=
  c == ' ' || c == '\t' || c == '\n' || c == '\r' || c == '\x0b' || c == '\x0c'

/-- `s.trim()`: strip whitespace from both ends. -/
def jsTrim (s : List Char) : List Char :=
  ((s.dropWhile isJsSpace).reverse.dropWhile isJsSpace).reverse

/-- A character profile as far as the index builder reads it. -/
structure CharacterProfile where
  id : String
  name : List Char

/-- A book note as far as the index builder reads it. -/
structure BookNote where
  id : String
  title : List Char

/-- The filtering half of `mentionableItems` (source lines 363-378):
profiles whose name is truthy and not all-whitespace, then notes whose title
is truthy and not all-whitespace, in input order. -/
def keptCandidates (profiles : List CharacterProfile) (notes : List BookNote) :
    List MentionItem :=
  (profiles.filterMap fun p =>
    if !p.name.isEmpty && !(jsTrim p.name).isEmpty then
      some ⟨p.id, p.name, ItemKind.character⟩
    else none) ++
  (notes.filterMap fun n =>
    if !n.title.isEmpty && !(jsTrim n.title).isEmpty then
      some ⟨n.id, n.title, ItemKind.note⟩
    else none)

/-- `mentionableItems` (source lines 363-380): filter, then sort by name
length descending. -/
def mentionableItems (profiles : List CharacterProfile) (notes : List BookNote) :
    List MentionItem :=
  sortByNameLenDesc (keptCandidates profiles notes)

/-! ### Termination of the abandoned first loop -/

/-- The first loop's boundary checks are equally vacuous. -/
theorem tryMatch1_eq (text : List Char) (csi : Nat) (item : MentionItem) :
    tryMatch1 text csi item =
      if item.name.isPrefixOf (text.drop csi) then
        some ⟨item, csi, item.name.length⟩
      else none := by
  unfold tryMatch1
  split
  · simp [containsBackslashW_jsCharAt]
  · rfl

theorem tryMatch1_some {text : List Char} {csi : Nat} {item : MentionItem} {m : ScanMatch}
    (h : tryMatch1 text csi item = some m) : m = ⟨item, csi, item.name.length⟩ := by
  rw [tryMatch1_eq] at h
  split at h
  · exact (Option.some.inj h).symm
  · cases h

theorem scanLoop1_isSome (sortedItems : List MentionItem) (text : List Char)
    (hname : ∀ i ∈ sortedItems, i.name ≠ []) :
    ∀ fuel acc li csi, text.length - csi < fuel →
      (scanLoop1 sortedItems text fuel acc li csi).isSome = true := by
  intro fuel
  induction fuel with
  | zero => intro acc li csi h; omega
  | succ fuel ih =>
    intro acc li csi hfuel
    by_cases hlt : csi < text.length
    · cases hm : sortedItems.findSome? (tryMatch1 text csi) with
      | some m =>
        obtain ⟨item, hitem, htm⟩ := List.exists_of_findSome?_eq_some hm
        have hm_eq := tryMatch1_some htm
        have hpos : 0 < item.name.length := List.length_pos.mpr (hname item hitem)
        rw [scanLoop1, if_pos hlt]
        simp only [hm]
        apply ih
        rw [hm_eq]
        simp only
        omega
      | none =>
        rw [scanLoop1, if_pos hlt]
        simp only [hm]
        exact ih _ _ _ (by omega)
    · rw [scanLoop1, if_neg hlt]
      rfl

/-! ### Stability and order of the length-descending sort -/

theorem insertByNameLenDesc_perm (l : List MentionItem) (x : MentionItem) :
    List.Perm (insertByNameLenDesc l x) (x :: l) := by
  induction l with
  | nil => exact List.Perm.refl _
  | cons y ys ih =>
    unfold insertByNameLenDesc
    split
    · exact List.Perm.refl _
    · exact (List.Perm.cons y ih).trans (List.Perm.swap x y ys)

theorem insertByNameLenDesc_sorted {l : List MentionItem} (x : MentionItem)
    (hl : l.Pairwise (fun a b => b.name.length ≤ a.name.length)) :
    (insertByNameLenDesc l x).Pairwise (fun a b => b.name.length ≤ a.name.length) := by
  induction l with
  | nil => simp [insertByNameLenDesc]
  | cons y ys ih =>
    rw [List.pairwise_cons] at hl
    obtain ⟨hy, hys⟩ := hl
    unfold insertByNameLenDesc
    split
    · rename_i hlen
      rw [List.pairwise_cons]
      refine ⟨?_, List.pairwise_cons.mpr ⟨hy, hys⟩⟩
      intro z hz
      rcases List.mem_cons.mp hz with rfl | hz'
      · omega
      · have := hy z hz'
        omega
    · rename_i hlen
      rw [List.pairwise_cons]
      refine ⟨?_, ih hys⟩
      intro z hz
      rcases List.mem_cons.mp ((insertByNameLenDesc_perm ys x).mem_iff.mp hz) with hzx | hz'
      · rw [hzx]; omega
      · exact hy z hz'

theorem insertByNameLenDesc_filter (n : Nat) (x : MentionItem) :
    ∀ l : List MentionItem, l.Pairwise (fun a b => b.name.length ≤ a.name.length) →
    (insertByNameLenDesc l x).filter (fun i => i.name.length == n) =
      if x.name.length == n then
        l.filter (fun i => i.name.length == n) ++ [x]
      else l.filter (fun i => i.name.length == n) := by
  intro l
  induction l with
  | nil =>
    intro _
    simp only [insertByNameLenDesc, List.filter_nil]
    rw [List.filter_cons, List.filter_nil]
    by_cases hx : (x.name.length == n) = true
    · rw [if_pos hx, if_pos hx]
      simp
    · rw [if_neg hx, if_neg hx]
  | cons y ys ih =>
    intro hl
    rw [List.pairwise_cons] at hl
    obtain ⟨hy, hys⟩ := hl
    unfold insertByNameLenDesc
    split
    · rename_i hlen
      by_cases hx : (x.name.length == n) = true
      · have hfe : (y :: ys).filter (fun i => i.name.length == n) = [] := by
          rw [List.filter_eq_nil_iff]
          intro z hz
          have hzlen : z.name.length ≤ y.name.length := by
            rcases List.mem_cons.mp hz with rfl | hz'
            · exact Nat.le_refl _
            · exact hy z hz'
          have hxn : x.name.length = n := by simpa using hx
          simp only [beq_iff_eq]
          omega
        rw [if_pos hx, hfe]
        rw [List.filter_cons_of_pos (by simpa using hx), hfe]
        rfl
      · rw [if_neg hx]
        rw [List.filter_cons_of_neg (by simpa using hx)]
    · rename_i hlen
      rw [List.filter_cons, List.filter_cons, ih hys]
      by_cases hx : (x.name.length == n) = true
      · rw [if_pos hx, if_pos hx]
        split <;> rfl
      · rw [if_neg hx, if_neg hx]

theorem sortByNameLenDesc_spec (items : List MentionItem) :
    List.Perm (sortByNameLenDesc items) items ∧
    (sortByNameLenDesc items).Pairwise (fun a b => b.name.length ≤ a.name.length) ∧
    ∀ n, (sortByNameLenDesc items).filter (fun i => i.name.length == n) =
      items.filter (fun i => i.name.length == n) := by
  suffices H : ∀ (l acc : List MentionItem),
      acc.Pairwise (fun a b => b.name.length ≤ a.name.length) →
      List.Perm (l.foldl insertByNameLenDesc acc) (acc ++ l) ∧
      (l.foldl insertByNameLenDesc acc).Pairwise
        (fun a b => b.name.length ≤ a.name.length) ∧
      ∀ n, (l.foldl insertByNameLenDesc acc).filter (fun i => i.name.length == n) =
        acc.filter (fun i => i.name.length == n) ++
          l.filter (fun i => i.name.length == n) by
    obtain ⟨h1, h2, h3⟩ := H items [] List.Pairwise.nil
    exact ⟨by simpa using h1, h2, fun n => by simpa using h3 n⟩
  intro l
  induction l with
  | nil =>
    intro acc hacc
    exact ⟨by simp, hacc, fun n => by simp⟩
  | cons x xs ih =>
    intro acc hacc
    have hacc' := insertByNameLenDesc_sorted x hacc
    obtain ⟨hperm, hsorted, hfilter⟩ := ih (insertByNameLenDesc acc x) hacc'
    refine ⟨?_, hsorted, ?_⟩
    · simp only [List.foldl_cons]
      refine hperm.trans ?_
      refine (List.Perm.append_right xs (insertByNameLenDesc_perm acc x)).trans ?_
      exact List.perm_middle.symm
    · intro n
      simp only [List.foldl_cons]
      rw [hfilter n, insertByNameLenDesc_filter n x acc hacc]
      rw [List.filter_cons]
      by_cases hx : (x.name.length == n) = true
      · rw [if_pos hx, if_pos hx]
        simp
      · rw [if_neg hx, if_neg hx]

/-! ### Every emitted mention is an occurrence in the text -/

theorem scanLoop_link_occurs (sortedItems : List MentionItem) (text : List Char) :
    ∀ fuel cti spans, scanLoop sortedItems text fuel cti = some spans →
    ∀ url cv t id nm ttl, MdNode.link url cv t id nm ttl ∈ spans →
    ∃ k, nm.isPrefixOf (text.drop k) = true := by
  intro fuel
  induction fuel with
  | zero => intro cti spans h; simp [scanLoop] at h
  | succ fuel ih =>
    intro cti spans h url cv t id nm ttl hmem
    rw [scanLoop] at h
    by_cases hlt : cti < text.length
    · rw [if_pos hlt] at h
      cases hm : sortedItems.findSome? (tryMatch text cti) with
      | some m =>
        simp only [hm] at h
        cases hrec : scanLoop sortedItems text fuel (cti + m.length) with
        | none => rw [hrec] at h; simp at h
        | some rest =>
          rw [hrec] at h
          simp only [Option.map_some'] at h
          rcases (Option.some.inj h).symm with rfl
          rcases List.mem_cons.mp hmem with hhead | htail
          · obtain ⟨item, hitem, htm⟩ := List.exists_of_findSome?_eq_some hm
            obtain ⟨hm_eq, hpre⟩ := tryMatch_some htm
            simp only [mkMentionLink, MdNode.link.injEq] at hhead
            obtain ⟨_, _, _, _, hnm, _⟩ := hhead
            refine ⟨cti, ?_⟩
            rw [hnm, hm_eq]
            exact hpre
          · exact ih _ rest hrec url cv t id nm ttl htail
      | none =>
        simp only [hm] at h
        cases hrec : scanLoop sortedItems text fuel
            (nextPotentialMatchStart sortedItems text cti) with
        | none => rw [hrec] at h; simp at h
        | some rest =>
          rw [hrec] at h
          simp only [Option.map_some'] at h
          rcases (Option.some.inj h).symm with rfl
          have htail : MdNode.link url cv t id nm ttl ∈ rest := by
            by_cases hseg : ((text.drop cti).take
                (nextPotentialMatchStart sortedItems text cti - cti)).isEmpty = true
            · rw [if_pos hseg] at hmem
              exact hmem
            · rw [if_neg hseg] at hmem
              rcases List.mem_cons.mp hmem with hh | ht
              · simp at hh
              · exact ht
          exact ih _ rest hrec url cv t id nm ttl htail
    · rw [if_neg hlt] at h
      rcases (Option.some.inj h).symm with rfl
      exact absurd hmem (List.not_mem_nil _)

/-- The name `"Elara"` occurs nowhere in the text `"elara"` (matching is
exact-case: `E` and `e` differ). -/
theorem elara_not_in_elara :
    ∀ k, ("Elara".toList).isPrefixOf (("elara".toList).drop k) = false := by
  intro k
  by_cases h5 : k < 5
  · interval_cases k <;> decide
  · have hlen : ("elara".toList).length = 5 := rfl
    have hnil : ("elara".toList).drop k = [] := List.drop_eq_nil_of_le (by omega)
    rw [hnil]
    decide

/-! ### The splice guard -/

theorem shouldSplice_of_link {spans : List MdNode} {text : List Char}
    (h : ∃ n ∈ spans, n.isLink = true) : shouldSplice spans text = true := by
  obtain ⟨n, hn, hlink⟩ := h
  cases spans with
  | nil => cases hn
  | cons a l =>
    cases l with
    | nil =>
      rcases List.mem_singleton.mp hn with rfl
      cases n with
      | text v => simp [MdNode.isLink] at hlink
      | link u cv t id nm ttl => simp [shouldSplice, firstIsPlainEqual]
    | cons b l' =>
      have hlen : (((a :: b :: l').length : Nat) == 1) = false := by
        rw [beq_eq_false_iff_ne]
        simp
      simp [shouldSplice, hlen]

/-! ### Concrete candidates used in the examples -/

def annItem : MentionItem := ⟨"ann-1", "Ann".toList, ItemKind.character⟩

def annaItem : MentionItem := ⟨"anna-2", "Anna".toList, ItemKind.character⟩

def elaraItem : MentionItem := ⟨"elara-1", "Elara".toList, ItemKind.character⟩

/-! ### The claims -/

/-- C1: Reconstruction — whenever the scanner returns a span sequence for an
input text, concatenating the spans' texts (plain values and mention
display names), in order, yields the original text exactly. -/
theorem C1_reconstruction (sortedItems : List MentionItem) (text : List Char)
    (spans : List MdNode) (h : resolveText sortedItems text = some spans) :
    spansText spans = text := by
  have h' : scanLoop sortedItems text (text.length + 1) 0 = some spans := h
  have := scanLoop_spansText sortedItems text (text.length + 1) 0 spans h'
  simpa using this

theorem C1_reconstruction_witness :
    spansText [mkMentionLink annItem, MdNode.text "abelle".toList] = "Annabelle".toList :=
  C1_reconstruction (sortByNameLenDesc [annItem]) "Annabelle".toList
    [mkMentionLink annItem, MdNode.text "abelle".toList] (by decide)

/-- C2: the claimed word-boundary discipline does NOT hold on the code as
written.  All four boundary tests use the regex literal `/\\w/`, which
matches a literal backslash followed by `w` — impossible for the
one-character strings it is applied to — so both boundary conditions are
vacuously satisfied (second conjunct, `tryMatch` is a bare prefix test).
Consequently, with candidate `"Ann"` and input `"Annabelle"`, the scan DOES
produce a mention at position 0 (first conjunct), contradicting the claim's
required end-boundary rejection. -/
theorem C2_word_boundary_code_bug :
    (resolveText (sortByNameLenDesc [annItem]) "Annabelle".toList
      = some [mkMentionLink annItem, MdNode.text "abelle".toList]) ∧
    ∀ (text : List Char) (cti : Nat) (item : MentionItem),
      tryMatch text cti item =
        if item.name.isPrefixOf (text.drop cti) then
          some ⟨item, cti, item.name.length⟩
        else none :=
  ⟨by decide, tryMatch_eq⟩

/-- C3: Longest-first resolution — the plugin's candidate list is ordered by
name length descending; at a scan position the first candidate (in that
order) whose `tryMatch` succeeds is the one accepted, and candidates are
tried past any earlier candidate that failed; with candidates `"Ann"` and
`"Anna"` on `"Anna said hi"`, position 0 resolves to `"Anna"`, never
`"Ann"`. -/
theorem C3_longest_first :
    (∀ items : List MentionItem, (sortByNameLenDesc items).Pairwise
      (fun a b => b.name.length ≤ a.name.length)) ∧
    (∀ (text : List Char) (cti : Nat) (pre post : List MentionItem)
      (item : MentionItem) (m : ScanMatch),
      (∀ x ∈ pre, tryMatch text cti x = none) → tryMatch text cti item = some m →
      (pre ++ item :: post).findSome? (tryMatch text cti) = some m) ∧
    resolveText (sortByNameLenDesc [annItem, annaItem]) "Anna said hi".toList
      = some [mkMentionLink annaItem, MdNode.text " said hi".toList] := by
  refine ⟨fun items => (sortByNameLenDesc_spec items).2.1, ?_, by decide⟩
  intro text cti pre post item m hpre hitem
  exact findSome?_append_first pre post hpre hitem

theorem C3_longest_first_witness :
    ([annaItem] ++ annItem :: []).findSome? (tryMatch "Ann!".toList 0)
      = some ⟨annItem, 0, 3⟩ :=
  C3_longest_first.2.1 "Ann!".toList 0 [annaItem] [] annItem ⟨annItem, 0, 3⟩
    (by decide) (by decide)

/-- C4: Empty candidate list — `createRemarkMentionPlugin` with no
candidates is the no-op plugin: the tree (here, the parent's children) is
returned unchanged, with no scanning at all; in particular the text node
stays a single plain node holding the whole input. -/
theorem C4_empty_candidates :
    (createRemarkMentionPlugin [] = fun children _ => some children) ∧
    ∀ (children : List MdNode) (index : Nat),
      createRemarkMentionPlugin [] children index = some children :=
  ⟨rfl, fun _ _ => rfl⟩

/-- C5: Index builder contract — `mentionableItems` contains no entry whose
name trims to empty (empty or all-whitespace names are excluded), is a
permutation of exactly the kept entries, is ordered by name length
descending, and breaks length ties by stable input order (the sublist at
each length is the kept sublist at that length, in order). -/
theorem C5_index_builder (profiles : List CharacterProfile) (notes : List BookNote) :
    (∀ item ∈ mentionableItems profiles notes, (jsTrim item.name).isEmpty = false) ∧
    List.Perm (mentionableItems profiles notes) (keptCandidates profiles notes) ∧
    (mentionableItems profiles notes).Pairwise
      (fun a b => b.name.length ≤ a.name.length) ∧
    ∀ n, (mentionableItems profiles notes).filter (fun i => i.name.length == n) =
      (keptCandidates profiles notes).filter (fun i => i.name.length == n) := by
  obtain ⟨hperm, hsorted, hfilter⟩ := sortByNameLenDesc_spec (keptCandidates profiles notes)
  refine ⟨?_, hperm, hsorted, hfilter⟩
  intro item hitem
  have hkept : item ∈ keptCandidates profiles notes := hperm.mem_iff.mp hitem
  unfold keptCandidates at hkept
  rcases List.mem_append.mp hkept with hp | hn
  · obtain ⟨p, hpmem, hpeq⟩ := List.mem_filterMap.mp hp
    by_cases hc : (!p.name.isEmpty && !(jsTrim p.name).isEmpty) = true
    · rw [if_pos hc] at hpeq
      have heq := Option.some.inj hpeq
      have hname : item.name = p.name := by rw [← heq]
      rw [hname]
      simp only [Bool.and_eq_true, Bool.not_eq_true'] at hc
      exact hc.2
    · rw [if_neg hc] at hpeq
      cases hpeq
  · obtain ⟨p, hpmem, hpeq⟩ := List.mem_filterMap.mp hn
    by_cases hc : (!p.title.isEmpty && !(jsTrim p.title).isEmpty) = true
    · rw [if_pos hc] at hpeq
      have heq := Option.some.inj hpeq
      have hname : item.name = p.title := by rw [← heq]
      rw [hname]
      simp only [Bool.and_eq_true, Bool.not_eq_true'] at hc
      exact hc.2
    · rw [if_neg hc] at hpeq
      cases hpeq

theorem C5_index_builder_witness :
    (jsTrim (Atome.MentionItem.name ⟨"n1", "Elara Vance".toList, ItemKind.note⟩)).isEmpty
      = false :=
  (C5_index_builder [⟨"p1", "Bo".toList⟩, ⟨"p2", "   ".toList⟩]
      [⟨"n1", "Elara Vance".toList⟩]).1
    ⟨"n1", "Elara Vance".toList, ItemKind.note⟩ (by decide)

/-- C6: Totality of the step — each iteration of the revised loop runs its
body to completion: below the end of the text one full step (the total
function `scanStep`, in which every JavaScript string access has a defined
fallback, see `jsCharAt`) is executed and the loop continues at the new
cursor; at or past the end the loop exits cleanly; the empty text yields an
empty span list without error. -/
theorem C6_step_totality :
    (∀ (sortedItems : List MentionItem) (text : List Char) (cti fuel : Nat),
      cti < text.length →
      scanLoop sortedItems text (fuel + 1) cti =
        (scanLoop sortedItems text fuel (scanStep sortedItems text cti).2).map
          (fun rest => (scanStep sortedItems text cti).1 ++ rest)) ∧
    (∀ (sortedItems : List MentionItem) (text : List Char) (cti fuel : Nat),
      text.length ≤ cti → scanLoop sortedItems text (fuel + 1) cti = some []) ∧
    (∀ (sortedItems : List MentionItem) (fuel : Nat),
      scanLoop sortedItems [] (fuel + 1) 0 = some []) := by
  refine ⟨?_, ?_, ?_⟩
  · intro sortedItems text cti fuel hlt
    rw [scanLoop, if_pos hlt]
    unfold scanStep
    cases hm : sortedItems.findSome? (tryMatch text cti) with
    | some m => simp [hm]
    | none =>
      simp only [hm]
      by_cases hseg : ((text.drop cti).take
          (nextPotentialMatchStart sortedItems text cti - cti)).isEmpty = true
      · simp [hseg]
      · simp [hseg]
  · intro sortedItems text cti fuel hge
    rw [scanLoop, if_neg (by omega)]
  · intro sortedItems fuel
    rw [scanLoop]
    simp

theorem C6_step_totality_witness :
    scanLoop [] "a".toList 2 0 =
      (scanLoop [] "a".toList 1 (scanStep [] "a".toList 0).2).map
        (fun rest => (scanStep [] "a".toList 0).1 ++ rest) :=
  C6_step_totality.1 [] "a".toList 0 1 (by decide)

/-- C7: Termination — when every candidate name is non-empty (what the
index builder guarantees), the cursor strictly increases on every loop
iteration, so the scan of any text completes (fuel `text.length + 1`
suffices and a span list is returned). -/
theorem C7_termination :
    (∀ (sortedItems : List MentionItem) (text : List Char) (cti : Nat),
      (∀ i ∈ sortedItems, i.name ≠ []) → cti < text.length →
      cti < (scanStep sortedItems text cti).2) ∧
    (∀ (sortedItems : List MentionItem) (text : List Char),
      (∀ i ∈ sortedItems, i.name ≠ []) →
      ∃ spans, resolveText sortedItems text = some spans) := by
  constructor
  · exact fun items text cti hname hlt => scanStep_cursor_lt items text cti hname hlt
  · intro items text hname
    exact scanLoop_isSome items text hname (text.length + 1) 0 (by omega)

theorem C7_termination_witness :
    (0 < (scanStep [annItem] "Ann".toList 0).2) ∧
    ∃ spans, resolveText [annItem] "Ann".toList = some spans :=
  ⟨C7_termination.1 [annItem] "Ann".toList 0 (by decide) (by decide),
    C7_termination.2 [annItem] "Ann".toList (by decide)⟩

/-- C8: Case sensitivity — matching is exact-case: no scan of the text
`"elara"` can ever produce a mention link whose display name is `"Elara"`
(every emitted mention's name occurs literally in the text, and `"Elara"`
does not occur in `"elara"`); concretely, the scan with candidate `"Elara"`
returns the whole text as one plain span. -/
theorem C8_case_sensitive :
    (∀ (sortedItems : List MentionItem) (spans : List MdNode),
      resolveText sortedItems "elara".toList = some spans →
      ∀ url cv t id ttl, MdNode.link url cv t id "Elara".toList ttl ∉ spans) ∧
    resolveText (sortByNameLenDesc [elaraItem]) "elara".toList
      = some [MdNode.text "elara".toList] := by
  constructor
  · intro items spans h url cv t id ttl hmem
    obtain ⟨k, hk⟩ := scanLoop_link_occurs items "elara".toList
      ("elara".toList.length + 1) 0 spans h url cv t id "Elara".toList ttl hmem
    rw [elara_not_in_elara k] at hk
    cases hk
  · decide

theorem C8_case_sensitive_witness :
    MdNode.link "u" [] ItemKind.character "x" "Elara".toList "t"
      ∉ [MdNode.text "elara".toList] :=
  C8_case_sensitive.1 (sortByNameLenDesc [elaraItem]) [MdNode.text "elara".toList]
    (by decide) "u" [] ItemKind.character "x" "t"

/-- C9: No-mentions frame condition — for a text node whose scan produced
spans: if no mention span was produced (equivalently, if the scan produced
exactly the one plain span equal to the whole text), the transformer leaves
the parent's children unchanged; and if at least one mention span was
produced, the node at `index` is replaced by splicing the spans in. -/
theorem C9_no_mention_frame (sortedItems : List MentionItem) (children : List MdNode)
    (index : Nat) (text : List Char) (spans : List MdNode)
    (hname : ∀ i ∈ sortedItems, i.name ≠ [])
    (hnode : children[index]? = some (MdNode.text text))
    (hscan : scanLoop sortedItems text (text.length + 1) 0 = some spans) :
    ((∀ n ∈ spans, n.isLink = false) →
      transformerTextNode sortedItems children index = some children) ∧
    (spans = [MdNode.text text] →
      transformerTextNode sortedItems children index = some children) ∧
    ((∃ n ∈ spans, n.isLink = true) →
      transformerTextNode sortedItems children index =
        some (spliceChildren children index spans)) := by
  have hl1 : (scanLoop1 sortedItems text (text.length + 1) [] 0 0).isSome = true :=
    scanLoop1_isSome sortedItems text hname _ _ _ _ (by omega)
  obtain ⟨nc, hnc⟩ := Option.isSome_iff_exists.mp hl1
  have hmain : transformerTextNode sortedItems children index =
      some (if shouldSplice spans text then spliceChildren children index spans
        else children) := by
    unfold transformerTextNode
    simp only [hnode, hnc, hscan]
  refine ⟨?_, ?_, ?_⟩
  · intro hnl
    have hsp : shouldSplice spans text = false := by
      have hplain := scanLoop_all_plain hscan hnl
      by_cases h0 : 0 < text.length
      · rw [if_pos h0] at hplain
        rw [hplain]
        simp [shouldSplice, firstIsPlainEqual]
      · rw [if_neg h0] at hplain
        rw [hplain]
        rfl
    rw [hmain, hsp]
    simp
  · intro heq
    rw [hmain, heq]
    simp [shouldSplice, firstIsPlainEqual]
  · intro hex
    rw [hmain, shouldSplice_of_link hex]
    simp

theorem C9_no_mention_frame_witness :
    transformerTextNode [annItem] [MdNode.text "Ann!".toList] 0 =
      some (spliceChildren [MdNode.text "Ann!".toList] 0
        [mkMentionLink annItem, MdNode.text "!".toList]) :=
  (C9_no_mention_frame [annItem] [MdNode.text "Ann!".toList] 0 "Ann!".toList
      [mkMentionLink annItem, MdNode.text "!".toList]
      (by decide) (by decide) (by decide)).2.2
    ⟨mkMentionLink annItem, List.mem_cons_self _ _, rfl⟩

/-- C10: Dead first pass — with the candidate names non-empty (the
guarantee of the index builder), the transformer as written (which still
executes the abandoned first loop and discards its accumulator) returns
exactly the same result on every parent/index as the transformer with the
first loop removed: the spliced output is determined entirely by the
revised loop. -/
theorem C10_dead_first_pass (sortedItems : List MentionItem) (children : List MdNode)
    (index : Nat) (hname : ∀ i ∈ sortedItems, i.name ≠ []) :
    transformerTextNode sortedItems children index =
      transformerRevisedOnly sortedItems children index := by
  unfold transformerTextNode transformerRevisedOnly
  cases hnode : children[index]? with
  | none => rfl
  | some node =>
    cases node with
    | text text =>
      have hl1 : (scanLoop1 sortedItems text (text.length + 1) [] 0 0).isSome = true :=
        scanLoop1_isSome sortedItems text hname _ _ _ _ (by omega)
      obtain ⟨nc, hnc⟩ := Option.isSome_iff_exists.mp hl1
      simp [hnc]
    | link u cv t id nm ttl => rfl

theorem C10_dead_first_pass_witness :
    transformerTextNode [annItem] [MdNode.text "Annabelle".toList] 0 =
      transformerRevisedOnly [annItem] [MdNode.text "Annabelle".toList] 0 :=
  C10_dead_first_pass [annItem] [MdNode.text "Annabelle".toList] 0 (by decide)

end Atome
